import Mathlib

/-!
Verification of the gocodewalker file-tree walker (`file.go`) against its
specification.

The development shallowly embeds the walker: the file system is an inductive
tree, the external gitignore pattern matcher (`gitignore.GitIgnore`, an
injected collaborator per the spec) is a pair of boolean-valued functions,
machine strings are Lean `String`s (ASCII fragment for case mapping), and the
output channel is a list of queue operations.  Effects of `os` calls
(`Getwd`, `Stat`, `Open`/`ReadDir` failures) are supplied by explicit
environments.  Functions marked "Modelled from the spec" embed code of the
repository that is referenced by its tests but whose defining source file is
not part of the sources at hand.
-/

namespace GoCodeWalker

/-! ### String helpers -/

/-- Model of the ASCII fragment of Go `strings.ToLower`: `Char.toLower`
maps `'A'..'Z'` to `'a'..'z'` and leaves every other character unchanged,
which agrees with Go on ASCII input. -/
def toLowerStr (s : String) : String := ⟨s.data.map Char.toLower⟩

/-- Index (from the front) of the last occurrence of `c`, or `none`.
Models Go `strings.LastIndex(s, string(c))` at character level (`-1`
becomes `none`). -/
def lastIdxChar (c : Char) : List Char → Option Nat
  | [] => none
  | d :: rest =>
    match lastIdxChar c rest with
    | some i => some (i + 1)
    | none => if d = c then some 0 else none

/-- Backwards scan of Go `path.Ext`: the argument is the reversed string,
the accumulator collects the characters already passed (in original order).
Stops with `[]` at a `'/'`, returns the dot and everything after it at the
first `'.'` encountered from the end. -/
def extScan : List Char → List Char → List Char
  | [], _ => []
  | c :: rest, acc =>
    if c = '/' then []
    else if c = '.' then c :: acc
    else extScan rest (c :: acc)

/-- Go `path.Ext`: suffix of `s` starting at the final dot of the final
slash-separated element; `""` when that element has no dot. -/
def pathExt (s : String) : String := ⟨extScan s.data.reverse []⟩

/-- Go `strings.HasSuffix`. -/
def hasSuffixStr (s suf : String) : Bool := suf.data.isSuffixOf s.data

/-- Helper for `containsSub`: `sub` occurs contiguously in the second
argument. -/
def containsSubAux (sub : List Char) : List Char → Bool
  | [] => sub.isEmpty
  | c :: t => sub.isPrefixOf (c :: t) || containsSubAux sub t

/-- Go `strings.Contains`. -/
def containsSub (s sub : String) : Bool := containsSubAux sub.data s.data

/-- Go `filepath.Join(directory, name)` as the tree walker calls it: an
already clean, nonempty directory that does not end in the separator, and
a separator-free entry name, on which `Join` is plain concatenation.
(`FindRepositoryRoot`'s probes, whose directory argument can be empty,
use `filepathJoin` below instead.) -/
def joinPath (directory name : String) : String := directory ++ "/" ++ name

/-! ### GetExtension (file.go lines 368-380) -/

/-- GetExtension, translated from `file.go:368-380`:

    name = strings.ToLower(name)
    if !strings.Contains(name, ".") { return name }
    if strings.LastIndex(name, ".") == 0 { return name }
    return path.Ext(name)[1:]

`none` models the one input class on which the Go code does not return:
when the name contains a dot but `path.Ext` yields `""` (last dot occurs
before a `'/'`), the slice expression `""[1:]` panics with an
out-of-range error. -/
def GetExtension (name : String) : Option String :=
  let low := toLowerStr name
  if !low.data.contains '.' then some low
  else if lastIdxChar '.' low.data = some 0 then some low
  else
    match (pathExt low).data with
    | [] => none
    | _ :: t => some ⟨t⟩

/-- Total wrapper used inside the walker model.  Directory-entry names never
contain the path separator, so the walker never reaches the panicking
branch of `GetExtension`; the default is never taken there. -/
def getExtD (name : String) : String := (GetExtension name).getD ""

/-! ### The external pattern matcher and the walker configuration -/

/-- The injected pattern-matching collaborator (`gitignore.GitIgnore`): per
the spec, a compiled pattern set answers `Match(path) -> pattern-or-none`
(here: `matchesP`) and, when matched, `Ignore(path) -> bool` (here:
`ignoreP`). -/
structure Matcher where
  matchesP : String → Bool
  ignoreP : String → Bool

/-- One compiled pattern set on the inherited stack.  `base` is the
absolute directory passed to `gitignore.New` alongside the file content
(`file.go:150-151`), i.e. the directory that contributed the set. -/
structure PatternSet where
  base : String
  m : Matcher

/-- Walker configuration: the exported fields of `FileWalker`
(`file.go:29-41`) plus the two injected capabilities: `compile` models
`gitignore.New(content, absDirectory)`, and `errHandler` models the
error-handler hook.  The error handler is Modelled from the spec (the
field and `SetErrorHandler` are referenced by the repository's tests but
defined outside the sources at hand): a handler returning `true` means
"continue", `false` means "stop"; `none` means no handler was set. -/
structure WalkerCfg where
  locationExcludePattern : List String
  pathExclude : List String
  ignoreIgnoreFile : Bool
  ignoreGitIgnore : Bool
  includeHidden : Bool
  allowListExtensions : List String
  compile : String → String → Matcher
  errHandler : Option (String → Bool)

/-! ### The file system model -/

mutual
/-- A node of the file-system tree: a regular file with content, a
readable directory, or a directory whose listing fails with error `e`
(`os.Open`/`ReadDir` failure, for the error-handler path). -/
inductive FSNode where
  | file (name content : String)
  | dir (name : String) (children : FSList)
  | baddir (name : String) (e : String)
/-- Children of a directory, kept as a mutually inductive list so the walk
is structurally recursive. -/
inductive FSList where
  | nil
  | cons (head : FSNode) (tail : FSList)
end

/-- Whether the directory entry reports `IsDir()` (a failing directory is
still a directory entry). -/
def FSNode.isDir : FSNode → Bool
  | .file _ _ => false
  | _ => true

/-- Name of the directory entry (`DirEntry.Name()`). -/
def FSNode.name : FSNode → String
  | .file n _ => n
  | .dir n _ => n
  | .baddir n _ => n

/-- Children of an `FSList` as an ordinary list. -/
def FSList.toList : FSList → List FSNode
  | .nil => []
  | .cons h t => h :: t.toList

/-- Modelled from the spec: the hidden-name check `IsHidden` (its defining
source file is not among the sources at hand; the spec calls for
hidden-entry suppression by name).  A name is hidden when it begins with a
dot (Go `strings.HasPrefix(name, ".")`, written on the character list so
that it evaluates by kernel reduction). -/
def isHidden (name : String) : Bool :=
  match name.data with
  | [] => false
  | c :: _ => c = '.'

/-! ### Walk results and errors -/

/-- A result record (`File` struct, `file.go:24-27`). -/
structure File where
  location : String
  filename : String
deriving DecidableEq

/-- Errors a walk can return: `terminateWalk` is `ErrTerminateWalk`
(`file.go:21`), `ioErr` is any I/O error carried by its message. -/
inductive WErr where
  | terminateWalk
  | ioErr (msg : String)
deriving DecidableEq

/-- Error message of `ReadDir` on a non-directory root. -/
def notADirectoryMsg : String := "not a directory"

/-- Operations performed on the output channel: sending one record, or
closing the channel. -/
inductive QueueOp where
  | send (f : File)
  | closeQ
deriving DecidableEq

/-- Result of one recursive walk: the records emitted to the queue in
order, the error-handler invocations in order, a log of
(directory, gitignore-stack, ignore-stack) for every directory whose
contents were filtered, the next value of the termination-check counter,
and the returned error. -/
structure WalkRes where
  files : List File
  calls : List String
  log : List (String × List PatternSet × List PatternSet)
  nOut : Nat
  err : Option WErr

/-! ### The filtering steps of walkDirectoryRecursive -/

/-- The two verdict loops (`file.go:174-194` for files, identical at
`file.go:256-276` for directories): fold the gitignore-style sets, then
the ignore-style sets over the same flag; on each set that matches, the
flag becomes that set's verdict, so the last match wins and ignore-style
sets override gitignore-style ones. -/
def resolveIgnore (gitignores ignores : List PatternSet) (fullPath : String) : Bool :=
  let s := gitignores.foldl
    (fun acc ig => if ig.m.matchesP fullPath then ig.m.ignoreP fullPath else acc) false
  ignores.foldl
    (fun acc ig => if ig.m.matchesP fullPath then ig.m.ignoreP fullPath else acc) s

/-- The allow-list check (`file.go:208-229`): look up the extracted
extension in the allow list, then extract once more from the extension
itself (for compound suffixes) and look that up as well. -/
def allowExtCheck (allowList : List String) (name : String) : Bool :=
  let ext := getExtD name
  let a := allowList.foldl (fun a v => if v == ext then true else a) false
  let ext2 := getExtD ext
  allowList.foldl (fun a v => if v == ext2 then true else a) a

/-- Loading of local `.gitignore`/`.ignore` files (`file.go:145-167`): one
pass over the plain files of the directory, appending a freshly compiled
pattern set (tagged with the directory passed to `gitignore.New`) to the
respective inherited stack. -/
def loadLocal (cfg : WalkerCfg) (directory : String) (files : List FSNode)
    (gitignores ignores : List PatternSet) : List PatternSet × List PatternSet :=
  files.foldl
    (fun acc f =>
      match f with
      | .file name content =>
        let acc1 :=
          if !cfg.ignoreGitIgnore && name == ".gitignore" then
            (acc.1 ++ [⟨directory, cfg.compile content directory⟩], acc.2)
          else acc
        if !cfg.ignoreIgnoreFile && name == ".ignore" then
          (acc1.1, acc1.2 ++ [⟨directory, cfg.compile content directory⟩])
        else acc1
      | _ => acc)
    (gitignores, ignores)

/-- Per-file filter chain (`file.go:171-245`): ignore-stack verdict,
hidden check, allow-list check, then the location-exclude substring check,
and finally the emission of the record. -/
def fileKeep (cfg : WalkerCfg) (directory : String)
    (gitignores ignores : List PatternSet) (name : String) : Option File :=
  let full := joinPath directory name
  let s1 := resolveIgnore gitignores ignores full
  let s2 := if !cfg.includeHidden then (if isHidden name then true else s1) else s1
  let s3 :=
    if cfg.allowListExtensions.length != 0 then
      (if !allowExtCheck cfg.allowListExtensions name then true else s2)
    else s2
  if !s3 then
    let s4 := cfg.locationExcludePattern.foldl
      (fun acc p => if containsSub full p then true else acc) s3
    if !s4 then some ⟨full, name⟩ else none
  else none

/-- Per-directory filter chain (`file.go:249-302`): ignore-stack verdict,
the `PathExclude` name-suffix check, and the hidden check.  (In this
version the `LocationExcludePattern` loop at `file.go:298-302` computes a
flag that the subsequent recursive call does not consult, so it cannot
prevent the recursion and is omitted here.) -/
def dirShouldRecurse (cfg : WalkerCfg) (directory : String)
    (gitignores ignores : List PatternSet) (name : String) : Bool :=
  let full := joinPath directory name
  let s1 := resolveIgnore gitignores ignores full
  let s2 := cfg.pathExclude.foldl
    (fun acc deny => if hasSuffixStr name deny then true else acc) s1
  let s3 := if !cfg.includeHidden then (if isHidden name then true else s2) else s2
  !s3

/-! ### The recursive walk (file.go lines 97-312) -/

mutual
/-- One call of `walkDirectoryRecursive` (`file.go:97-312`) on the entry at
`directory`.  `term n` is the value the `terminateWalking` flag would be
observed to have at the `n`-th check (`file.go:100-105`; the flag is only
ever set, so a run of the Go walker corresponds to some monotone `term`).
A plain file as the walk target makes `ReadDir` fail with "not a
directory".  A directory whose listing fails is routed through the
spec-modelled error handler ("continue" skips the directory and returns
success, "stop" or no handler propagates the error).  A readable directory
is partitioned into files and subdirectories (`file.go:118-130`), local
ignore files extend the inherited stacks (`file.go:145-167`), files are
filtered and emitted first (`file.go:171-245`), then subdirectories are
filtered and recursed into (`file.go:249-309`). -/
def walkNode (cfg : WalkerCfg) (term : Nat → Bool) (node : FSNode) (directory : String)
    (gitignores ignores : List PatternSet) (n : Nat) : WalkRes :=
  if term n then ⟨[], [], [], n + 1, some .terminateWalk⟩
  else
    match node with
    | .file _ _ => ⟨[], [], [], n + 1, some (.ioErr notADirectoryMsg)⟩
    | .baddir _ e =>
      match cfg.errHandler with
      | none => ⟨[], [], [], n + 1, some (.ioErr e)⟩
      | some h =>
        if h e then ⟨[], [e], [], n + 1, none⟩
        else ⟨[], [e], [], n + 1, some (.ioErr e)⟩
    | .dir _ children =>
      let files := children.toList.filter (fun c => !c.isDir)
      let gi := loadLocal cfg directory files gitignores ignores
      let emitted := files.filterMap (fun c => fileKeep cfg directory gi.1 gi.2 c.name)
      let rest := walkDirs cfg term children directory gi.1 gi.2 (n + 1)
      ⟨emitted ++ rest.files, rest.calls, (directory, gi.1, gi.2) :: rest.log, rest.nOut, rest.err⟩

/-- The loop over the subdirectories (`file.go:249-309`): directory
children are visited in listing order; a child that fails its filter chain
is skipped; the first error returned by a recursive call is propagated
immediately, abandoning the remaining children (`file.go:304-307`). -/
def walkDirs (cfg : WalkerCfg) (term : Nat → Bool) (l : FSList) (directory : String)
    (gitignores ignores : List PatternSet) (n : Nat) : WalkRes :=
  match l with
  | .nil => ⟨[], [], [], n, none⟩
  | .cons c rest =>
    if c.isDir then
      if dirShouldRecurse cfg directory gitignores ignores c.name then
        let r := walkNode cfg term c (joinPath directory c.name) gitignores ignores n
        match r.err with
        | some _ => r
        | none =>
          let r2 := walkDirs cfg term rest directory gitignores ignores r.nOut
          ⟨r.files ++ r2.files, r.calls ++ r2.calls, r.log ++ r2.log, r2.nOut, r2.err⟩
      else walkDirs cfg term rest directory gitignores ignores n
    else walkDirs cfg term rest directory gitignores ignores n
end

/-- `Start` (`file.go:82-95`): run the recursive walk from the root with
empty inherited stacks, then close the output queue — unconditionally, on
every exit path — and return the walk's error.  The first component lists
the operations performed on the queue in order. -/
def startWalk (cfg : WalkerCfg) (term : Nat → Bool) (root : FSNode) (directory : String) :
    List QueueOp × Option WErr :=
  let r := walkNode cfg term root directory [] [] 0
  (r.files.map QueueOp.send ++ [QueueOp.closeQ], r.err)

/-! ### Directory exclude suffix (spec-modelled) -/

/-- Modelled from the spec: the segment-aligned directory exclude-suffix
match `isSuffixDir` (referenced by the repository's tests; its defining
source is not among the sources at hand).  Per the spec, a configured
suffix excludes a path when it equals the whole path or matches a suffix
of it beginning exactly at a path-separator boundary. -/
def isSuffixDir (base suf : String) : Bool :=
  suf == base || ("/" ++ suf).data.isSuffixOf base.data

/-! ### Repository-root discovery (file.go lines 319-363) -/

/-- Environment supplying the `os` calls used by `FindRepositoryRoot`:
`cwd` is the result of `os.Getwd` (`none` models failure), and
`statIsDir p` holds when `os.Stat(p)` succeeds and reports a directory.
The argument of `statIsDir` is the literal path string the program passes
to `os.Stat`; a relative string (one not beginning with the separator) is
resolved by the OS against the working directory, a consistency the
relevant theorems take as an explicit hypothesis. -/
structure OSEnv where
  cwd : Option String
  statIsDir : String → Bool

/-- Go `filepath.Join(dir, nm)` as `checkForGitOrMercurial` calls it:
`Join` drops empty elements — `Join("", ".git") = ".git"`, a
working-directory-relative path — and cleans the result, so a trailing
separator on `dir` is not doubled (`Join("/", ".git") = "/.git"`).
Faithful for every `dir` that is itself clean (no repeated separators, no
dot segments), which covers the working directory returned by `os.Getwd`
and every cut the ancestor loop takes from it, including the final empty
cut. -/
def filepathJoin (dir nm : String) : String :=
  if dir = "" then nm
  else if dir.data.getLast? = some '/' then dir ++ nm
  else dir ++ "/" ++ nm

/-- checkForGitOrMercurial (`file.go:352-363`): the directory contains a
`.git` or `.hg` directory.  Note that for the empty string — the ancestor
loop's final cut — `filepath.Join` produces the relative paths `".git"`
and `".hg"`, which the OS resolves against the working directory, not
against the filesystem root. -/
def checkForGitOrMercurial (env : OSEnv) (curdir : String) : Bool :=
  env.statIsDir (filepathJoin curdir ".git") || env.statIsDir (filepathJoin curdir ".hg")

/-- Helper for the termination argument of the ancestor loop. -/
theorem lastIdxChar_lt_length {c : Char} : ∀ {l : List Char} {i : Nat},
    lastIdxChar c l = some i → i < l.length := by
  intro l
  induction l with
  | nil => intro i h; simp [lastIdxChar] at h
  | cons d rest ih =>
    intro i h
    rw [lastIdxChar] at h
    cases hrec : lastIdxChar c rest with
    | some j =>
      rw [hrec] at h
      simp only [Option.some.injEq] at h
      have := ih hrec
      simp [← h, List.length_cons]
      omega
    | none =>
      rw [hrec] at h
      by_cases hd : d = c
      · simp [hd] at h
        simp [← h]
      · simp [hd] at h

/-- The ancestor loop of `FindRepositoryRoot` (`file.go:335-344`):
repeatedly cut `curdir` at its last path separator; return the first cut
that contains a VCS marker, or `startDirectory` when the separators are
exhausted. -/
def findRootLoop (env : OSEnv) (startDirectory : String) (curdir : String) : String :=
  match h : lastIdxChar '/' curdir.data with
  | none => startDirectory
  | some i =>
    let curdir2 : String := ⟨curdir.data.take i⟩
    if checkForGitOrMercurial env curdir2 then curdir2
    else findRootLoop env startDirectory curdir2
termination_by curdir.data.length
decreasing_by
  simp only [List.length_take]
  have := lastIdxChar_lt_length h
  omega

/-- FindRepositoryRoot (`file.go:319-350`): probe the process working
directory; if `Getwd` fails or the working directory itself holds a VCS
marker, return the supplied start directory; otherwise walk the working
directory's ancestors. -/
def FindRepositoryRoot (env : OSEnv) (startDirectory : String) : String :=
  match env.cwd with
  | none => startDirectory
  | some curdir =>
    if checkForGitOrMercurial env curdir then startDirectory
    else findRootLoop env startDirectory curdir

/-- Verdict of the last pattern set in the stack that matches `p`, stated
from the spec's words ("the last matching set's verdict wins"): a later
set's verdict, when it matches, takes precedence over every earlier one;
`none` when no set matches. -/
def lastMatchVerdict (p : String) : List PatternSet → Option Bool
  | [] => none
  | s :: rest =>
    match lastMatchVerdict p rest with
    | some v => some v
    | none => if s.m.matchesP p then some (s.m.ignoreP p) else none

/-- Directory `p` lies on the ancestor chain of `q` (it is `q` itself or a
path-prefix of `q` ending at a separator). -/
def pathBelow (p q : String) : Prop := p = q ∨ (p ++ "/").data <+: q.data

/-- Property of one walk-log entry `e = (q, G', I')` relative to the stacks
`(g, i)` inherited at subtree root `p`: the entry's directory lies in the
subtree, the inherited stacks are an unchanged prefix of the consulted
stacks, and every appended pattern set was contributed by a directory on
`q`'s own ancestor chain inside the subtree. -/
def scopedEntry (p : String) (g i : List PatternSet)
    (e : String × List PatternSet × List PatternSet) : Prop :=
  pathBelow p e.1 ∧
  (∃ gext, e.2.1 = g ++ gext ∧ ∀ s ∈ gext, pathBelow p s.base ∧ pathBelow s.base e.1) ∧
  (∃ iext, e.2.2 = i ++ iext ∧ ∀ s ∈ iext, pathBelow p s.base ∧ pathBelow s.base e.1)

/-! ### Concrete fixtures used by witness theorems -/

/-- A pattern matcher that matches nothing. -/
def m0 : Matcher := ⟨fun _ => false, fun _ => false⟩

/-- Default walker configuration: no filters, no handler, hidden entries
suppressed, ignore files honored, compilation yields the trivial matcher. -/
def cfg0 : WalkerCfg := ⟨[], [], false, false, false, [], fun _ _ => m0, none⟩

/-- Configuration with extension allow-list `["txt"]`. -/
def cfgTxt : WalkerCfg := { cfg0 with allowListExtensions := ["txt"] }

/-- Configuration with a "continue" error handler installed. -/
def cfgH : WalkerCfg := { cfg0 with errHandler := some (fun _ => true) }

/-- Termination flag that always reads `false` (Terminate never called). -/
def termF : Nat → Bool := fun _ => false

/-- Termination flag that always reads `true` (Terminate called before
Start). -/
def termT : Nat → Bool := fun _ => true

/-- A directory holding the single file `test.txt`. -/
def fsTxt : FSNode := .dir "d" (.cons (.file "test.txt" "x") .nil)

/-- A directory holding the single file `test.md`. -/
def fsMd : FSNode := .dir "d" (.cons (.file "test.md" "x") .nil)

/-- A directory holding one subdirectory with one file. -/
def fsNest : FSNode := .dir "r" (.cons (.dir "sub" (.cons (.file "x.txt" "") .nil)) .nil)

/-- OS environment whose filesystem holds a single VCS marker at
`/h/u/proj/.git` and whose working directory is `/h/u/proj/sub`. -/
def env9 : OSEnv := ⟨some "/h/u/proj/sub", fun p => p == "/h/u/proj/.git"⟩

/-- OS environment whose filesystem holds a single VCS marker at `/.git`
(the filesystem root) and whose working directory is `/a/b`.  Relative
stats resolve against the working directory, so no path this environment
maps to `true` other than `/.git` itself. -/
def envRoot : OSEnv := ⟨some "/a/b", fun p => p == "/.git"⟩

/-- Strict ancestors of a directory in the order the loop enumerates them
(nearest first): each element is the previous one cut at its last path
separator.  Stated from the spec's words for comparison with the loop. -/
def strictAncestors (curdir : String) : List String :=
  match h : lastIdxChar '/' curdir.data with
  | none => []
  | some i =>
    let a : String := ⟨curdir.data.take i⟩
    a :: strictAncestors a
termination_by curdir.data.length
decreasing_by
  simp only [List.length_take]
  have := lastIdxChar_lt_length h
  omega

/-! ## Theorems -/

/-! ### C1: last-match-wins precedence of the two pattern-set stacks -/

/-- The verdict loop is a fold that keeps overwriting the flag with the
verdict of each matching set, so it computes the last matching verdict,
defaulting to the initial flag. -/
theorem foldl_verdict_eq_lastMatch (p : String) (sets : List PatternSet) (init : Bool) :
    sets.foldl (fun acc ig => if ig.m.matchesP p then ig.m.ignoreP p else acc) init
      = (lastMatchVerdict p sets).getD init := by
  induction sets generalizing init with
  | nil => simp [lastMatchVerdict]
  | cons s rest ih =>
    rw [List.foldl_cons, ih, lastMatchVerdict]
    cases hrest : lastMatchVerdict p rest with
    | some v => simp
    | none =>
      by_cases hm : s.m.matchesP p = true
      · simp [hm]
      · simp [hm]

/-- C1: for every path `p` and inherited stacks `G` (gitignore-style) and
`I` (ignore-style), the verdict computed by the walker's two loops is the
verdict of the last set in `G` matching `p`, overridden by the verdict of
the last set in `I` matching `p` whenever any set in `I` matches; when no
set in either stack matches, the path is included (`false` = not
ignored). -/
theorem resolveIgnore_last_match_wins (G I : List PatternSet) (p : String) :
    resolveIgnore G I p
      = (lastMatchVerdict p I).getD ((lastMatchVerdict p G).getD false) := by
  unfold resolveIgnore
  rw [foldl_verdict_eq_lastMatch, foldl_verdict_eq_lastMatch]

/-! ### C3: the output queue is closed exactly once, at the end -/

/-- C3: on every exit path of `Start` — normal completion, I/O error, or
termination, i.e. for every file system, configuration and termination
behavior — the sequence of operations performed on the output queue
contains exactly one close, and it is the final operation (`Start` closes
the queue after the recursive walk returns, never a consumer), so a
consumer draining the queue always reaches the close. -/
theorem startWalk_closes_queue_once (cfg : WalkerCfg) (term : Nat → Bool)
    (root : FSNode) (p : String) :
    (startWalk cfg term root p).1.count QueueOp.closeQ = 1 ∧
    (startWalk cfg term root p).1.getLast? = some QueueOp.closeQ := by
  unfold startWalk
  constructor
  · rw [List.count_append]
    have hz : ((walkNode cfg term root p [] [] 0).files.map QueueOp.send).count QueueOp.closeQ
        = 0 := by
      rw [List.count_eq_zero]
      intro hmem
      rcases List.mem_map.mp hmem with ⟨f, _, habs⟩
      exact QueueOp.noConfusion habs
    rw [hz]
    rfl
  · exact List.getLast?_concat _

/-! ### C5: segment-aligned directory exclude suffix (spec-modelled) -/

/-- C5: a directory path `P` is excluded by a configured literal
exclude-suffix `S` exactly when the match is segment-aligned: `S` equals
the whole path, or `S` matches a suffix of `P` beginning right after a
path separator; in particular `"stuff/multi"` excludes paths under
`.../stuff/multi` but not under `.../anotherstuff/multi`. -/
theorem isSuffixDir_segment_aligned (P S : String) :
    (isSuffixDir P S = true ↔ S = P ∨ ∃ pre : String, P = pre ++ "/" ++ S) ∧
    isSuffixDir "/r/stuff/multi" "stuff/multi" = true ∧
    isSuffixDir "/r/anotherstuff/multi" "stuff/multi" = false := by
  refine ⟨?_, by decide, by decide⟩
  unfold isSuffixDir
  rw [Bool.or_eq_true, beq_iff_eq, List.isSuffixOf_iff_suffix]
  constructor
  · rintro (h | ⟨t, ht⟩)
    · exact Or.inl h
    · refine Or.inr ⟨⟨t⟩, ?_⟩
      apply String.ext
      rw [← ht]
      simp [String.data_append]
  · rintro (h | ⟨pre, hpre⟩)
    · exact Or.inl h
    · refine Or.inr ⟨pre.data, ?_⟩
      rw [hpre]
      simp [String.data_append]

/-! ### C2: termination -/

mutual
/-- A walk that returns without error never observed the termination flag
(nor any error), so it behaves exactly like a walk whose flag always reads
`false`. -/
theorem walkNode_err_none_eq (cfg : WalkerCfg) (term : Nat → Bool) (node : FSNode)
    (p : String) (g i : List PatternSet) (n : Nat)
    (h : (walkNode cfg term node p g i n).err = none) :
    walkNode cfg term node p g i n = walkNode cfg termF node p g i n := by
  by_cases hterm : term n
  · rw [walkNode.eq_def, if_pos hterm] at h
    exact absurd h (by simp)
  · cases node with
    | file nm c =>
      rw [walkNode, if_neg (by simp [hterm])] at h
      exact absurd h (by simp)
    | baddir nm e =>
      rw [walkNode, if_neg (by simp [hterm]), walkNode,
        if_neg (by simp [termF])]
    | dir nm children =>
      rw [walkNode, if_neg (by simp [hterm])] at h ⊢
      rw [walkNode, if_neg (by simp [termF])]
      simp only at h ⊢
      rw [walkDirs_err_none_eq cfg term children p _ _ (n + 1) h]

/-- Companion of `walkNode_err_none_eq` for the subdirectory loop. -/
theorem walkDirs_err_none_eq (cfg : WalkerCfg) (term : Nat → Bool) (l : FSList)
    (p : String) (g i : List PatternSet) (n : Nat)
    (h : (walkDirs cfg term l p g i n).err = none) :
    walkDirs cfg term l p g i n = walkDirs cfg termF l p g i n := by
  cases l with
  | nil => rw [walkDirs, walkDirs]
  | cons c rest =>
    by_cases hd : c.isDir
    · by_cases hrec : dirShouldRecurse cfg p g i c.name
      · rw [walkDirs, if_pos hd, if_pos hrec] at h ⊢
        rw [walkDirs, if_pos hd, if_pos hrec]
        cases herr : (walkNode cfg term c (joinPath p c.name) g i n).err with
        | some e =>
          simp only [herr] at h
          simp at h
        | none =>
          have heq := walkNode_err_none_eq cfg term c (joinPath p c.name) g i n herr
          have herrF : (walkNode cfg termF c (joinPath p c.name) g i n).err = none := by
            rw [← heq]; exact herr
          simp only [herr] at h
          simp only [herr, herrF]
          rw [heq, walkDirs_err_none_eq cfg term rest p g i
            ((walkNode cfg termF c (joinPath p c.name) g i n).nOut)
            (by rw [← heq]; exact h)]
      · rw [walkDirs, if_pos hd, if_neg hrec] at h ⊢
        rw [walkDirs, if_pos hd, if_neg hrec]
        exact walkDirs_err_none_eq cfg term rest p g i n h
    · rw [walkDirs, if_neg hd] at h ⊢
      rw [walkDirs, if_neg hd]
      exact walkDirs_err_none_eq cfg term rest p g i n h
end

mutual
/-- Records emitted by a walk under any termination behavior form a prefix
of the records of the undisturbed walk: observing the termination flag
only cuts the output short, it never emits anything further. -/
theorem walkNode_files_pfx (cfg : WalkerCfg) (term : Nat → Bool) (node : FSNode)
    (p : String) (g i : List PatternSet) (n : Nat) :
    (walkNode cfg term node p g i n).files <+: (walkNode cfg termF node p g i n).files := by
  by_cases hterm : term n
  · rw [walkNode.eq_def, if_pos hterm]
    exact List.nil_prefix
  · cases node with
    | file nm c =>
      rw [walkNode, if_neg (by simp [hterm]), walkNode, if_neg (by simp [termF])]
    | baddir nm e =>
      rw [walkNode, if_neg (by simp [hterm]), walkNode, if_neg (by simp [termF])]
    | dir nm children =>
      rw [walkNode, if_neg (by simp [hterm]), walkNode, if_neg (by simp [termF])]
      simp only
      rcases walkDirs_files_pfx cfg term children p
        (loadLocal cfg p (children.toList.filter (fun c => !c.isDir)) g i).1
        (loadLocal cfg p (children.toList.filter (fun c => !c.isDir)) g i).2
        (n + 1) with ⟨t, ht⟩
      exact ⟨t, by rw [List.append_assoc, ht]⟩

/-- Companion of `walkNode_files_pfx` for the subdirectory loop. -/
theorem walkDirs_files_pfx (cfg : WalkerCfg) (term : Nat → Bool) (l : FSList)
    (p : String) (g i : List PatternSet) (n : Nat) :
    (walkDirs cfg term l p g i n).files <+: (walkDirs cfg termF l p g i n).files := by
  cases l with
  | nil => rw [walkDirs, walkDirs]
  | cons c rest =>
    by_cases hd : c.isDir
    · by_cases hrec : dirShouldRecurse cfg p g i c.name
      · rw [walkDirs, if_pos hd, if_pos hrec, walkDirs, if_pos hd, if_pos hrec]
        simp only
        cases herr : (walkNode cfg term c (joinPath p c.name) g i n).err with
        | some e =>
          simp only [herr]
          cases herrF : (walkNode cfg termF c (joinPath p c.name) g i n).err with
          | some eF =>
            simp only [herrF]
            exact walkNode_files_pfx cfg term c (joinPath p c.name) g i n
          | none =>
            simp only [herrF]
            exact (walkNode_files_pfx cfg term c (joinPath p c.name) g i n).trans
              (List.prefix_append _ _)
        | none =>
          have heq := walkNode_err_none_eq cfg term c (joinPath p c.name) g i n herr
          rw [heq] at herr ⊢
          simp only [herr]
          rcases walkDirs_files_pfx cfg term rest p g i
            ((walkNode cfg termF c (joinPath p c.name) g i n).nOut) with ⟨t, ht⟩
          exact ⟨t, by rw [List.append_assoc, ht]⟩
      · rw [walkDirs, if_pos hd, if_neg hrec, walkDirs, if_pos hd, if_neg hrec]
        exact walkDirs_files_pfx cfg term rest p g i n
    · rw [walkDirs, if_neg hd, walkDirs, if_neg hd]
      exact walkDirs_files_pfx cfg term rest p g i n
end

/-- C2: (a) when the termination flag already reads `true` at the first
check, `Start` emits zero `File` records (the only queue operation is the
close) and returns `ErrTerminateWalk`; (b) more generally, any directory
entered when the flag reads `true` contributes no records and aborts the
walk with `ErrTerminateWalk`; (c) under any termination behavior the
emitted records form a prefix of the undisturbed walk's records — once
termination is observed, nothing further is emitted for the rest of the
walk. -/
theorem terminate_stops_walk (cfg : WalkerCfg) (term : Nat → Bool) :
    (∀ root p, term 0 = true →
      (startWalk cfg term root p).1 = [QueueOp.closeQ] ∧
      (startWalk cfg term root p).2 = some WErr.terminateWalk) ∧
    (∀ node p g i n, term n = true →
      (walkNode cfg term node p g i n).files = [] ∧
      (walkNode cfg term node p g i n).err = some WErr.terminateWalk) ∧
    (∀ node p g i n,
      (walkNode cfg term node p g i n).files <+: (walkNode cfg termF node p g i n).files) := by
  have hgen : ∀ (node : FSNode) (p : String) (g i : List PatternSet) (n : Nat),
      term n = true →
      (walkNode cfg term node p g i n).files = [] ∧
      (walkNode cfg term node p g i n).err = some WErr.terminateWalk := by
    intro node p g i n hn
    cases node <;> rw [walkNode, if_pos hn] <;> exact ⟨rfl, rfl⟩
  refine ⟨?_, hgen, fun node p g i n => walkNode_files_pfx cfg term node p g i n⟩
  intro root p h0
  rcases hgen root p [] [] 0 h0 with ⟨hf, he⟩
  constructor
  · show List.map QueueOp.send (walkNode cfg term root p [] [] 0).files ++ [QueueOp.closeQ] = _
    rw [hf]
    rfl
  · show (walkNode cfg term root p [] [] 0).err = _
    exact he

/-- Witness for C2 at a concrete input: terminate requested before Start
on a one-file directory. -/
theorem terminate_stops_walk_witness :
    (startWalk cfg0 termT fsTxt "/tmp/d").1 = [QueueOp.closeQ] ∧
    (startWalk cfg0 termT fsTxt "/tmp/d").2 = some WErr.terminateWalk :=
  (terminate_stops_walk cfg0 termT).1 fsTxt "/tmp/d" rfl

/-! ### C4: directory-listing failures and the error handler (spec-modelled) -/

/-- C4: when listing a directory's entries fails with error `e`, the
walker invokes the configured handler with exactly that one error
(`calls = [e]`, exactly once per encounter); a "continue" verdict skips
the directory and returns success for the subtree with nothing emitted,
while a "stop" verdict — or the absence of a handler — propagates the
error, and from the root it propagates out of `Start`. -/
theorem baddir_error_handler (cfg : WalkerCfg) (term : Nat → Bool) (nm e p : String)
    (g i : List PatternSet) (n : Nat) (hn : term n = false) (h0 : term 0 = false) :
    (cfg.errHandler = none →
      walkNode cfg term (.baddir nm e) p g i n
        = ⟨[], [], [], n + 1, some (.ioErr e)⟩ ∧
      (startWalk cfg term (.baddir nm e) p).2 = some (.ioErr e)) ∧
    (∀ h, cfg.errHandler = some h →
      (walkNode cfg term (.baddir nm e) p g i n).calls = [e] ∧
      (h e = true →
        walkNode cfg term (.baddir nm e) p g i n = ⟨[], [e], [], n + 1, none⟩) ∧
      (h e = false →
        walkNode cfg term (.baddir nm e) p g i n
          = ⟨[], [e], [], n + 1, some (.ioErr e)⟩ ∧
        (startWalk cfg term (.baddir nm e) p).2 = some (.ioErr e))) := by
  have hw : ∀ m, term m = false → walkNode cfg term (.baddir nm e) p g i m
      = match cfg.errHandler with
        | none => ⟨[], [], [], m + 1, some (.ioErr e)⟩
        | some h =>
          if h e then ⟨[], [e], [], m + 1, none⟩
          else ⟨[], [e], [], m + 1, some (.ioErr e)⟩ := by
    intro m hm
    rw [walkNode, if_neg (by simp [hm])]
  have hw0 : ∀ m, term m = false → walkNode cfg term (.baddir nm e) p [] [] m
      = match cfg.errHandler with
        | none => ⟨[], [], [], m + 1, some (.ioErr e)⟩
        | some h =>
          if h e then ⟨[], [e], [], m + 1, none⟩
          else ⟨[], [e], [], m + 1, some (.ioErr e)⟩ := by
    intro m hm
    rw [walkNode, if_neg (by simp [hm])]
  constructor
  · intro hnone
    constructor
    · rw [hw n hn, hnone]
    · show (walkNode cfg term (.baddir nm e) p [] [] 0).err = _
      rw [hw0 0 h0, hnone]
  · intro h hsome
    refine ⟨?_, ?_, ?_⟩
    · rw [hw n hn, hsome]
      by_cases hv : h e = true <;> simp [hv]
    · intro hv
      rw [hw n hn, hsome]
      simp [hv]
    · intro hv
      constructor
      · rw [hw n hn, hsome]
        simp [hv]
      · show (walkNode cfg term (.baddir nm e) p [] [] 0).err = _
        rw [hw0 0 h0, hsome]
        simp [hv]

/-- Witness for C4 at a concrete input: an unreadable directory walked
under a "continue" handler. -/
theorem baddir_error_handler_witness :
    (walkNode cfgH termF (.baddir "bad" "boom") "/r" [] [] 0).calls = ["boom"] ∧
    walkNode cfgH termF (.baddir "bad" "boom") "/r" [] [] 0 = ⟨[], ["boom"], [], 1, none⟩ := by
  have h := baddir_error_handler cfgH termF "bad" "boom" "/r" [] [] 0 rfl rfl
  exact ⟨(h.2 _ rfl).1, (h.2 _ rfl).2.1 rfl⟩

/-! ### C7: extension allow-list -/

/-- The allow-list lookup loop is membership. -/
theorem allowlist_foldl_contains (l : List String) (x : String) (init : Bool) :
    l.foldl (fun a v => if v == x then true else a) init = (init || l.contains x) := by
  induction l generalizing init with
  | nil => simp
  | cons v rest ih =>
    rw [List.foldl_cons, ih]
    by_cases hv : v = x
    · subst hv
      simp
    · have h1 : (v == x) = false := by simp [hv]
      simp [h1, Ne.symm hv]

/-- C7: a file passes the configured allow-list check iff the extracted
extension of its name, or the extension extracted once more from that
extension, is a member of the allow-list; consequently, a directory
containing only `test.txt` yields exactly one record under allow-list
`["txt"]`, and a directory containing only `test.md` yields zero. -/
theorem allowlist_extension_membership (allow : List String) (nm : String) :
    (allowExtCheck allow nm
      = (allow.contains (getExtD nm) || allow.contains (getExtD (getExtD nm)))) ∧
    (walkNode cfgTxt termF fsTxt "/tmp/d" [] [] 0).files
      = [⟨joinPath "/tmp/d" "test.txt", "test.txt"⟩] ∧
    (walkNode cfgTxt termF fsMd "/tmp/d" [] [] 0).files = [] := by
  refine ⟨?_, by decide, by decide⟩
  unfold allowExtCheck
  rw [allowlist_foldl_contains, allowlist_foldl_contains]
  simp

/-! ### Character-level lemmas about the ASCII lowercasing -/

/-- Lowercasing an ASCII uppercase letter adds 32 to its code point. -/
theorem toLower_toNat_of_upper (c : Char) (h65 : 65 ≤ c.toNat) (h90 : c.toNat ≤ 90) :
    (Char.toLower c).toNat = c.toNat + 32 := by
  have hv : (c.toNat + 32).isValidChar := by
    unfold Nat.isValidChar
    left; omega
  rw [Char.toLower]
  simp only [ge_iff_le]
  rw [if_pos ⟨h65, h90⟩, Char.ofNat, dif_pos hv]
  simp [Char.ofNatAux, Char.toNat, UInt32.toNat, BitVec.toNat_ofNatLt]

/-- Lowercasing fixes everything outside `'A'..'Z'`. -/
theorem toLower_eq_self (c : Char) (h : ¬(65 ≤ c.toNat ∧ c.toNat ≤ 90)) :
    Char.toLower c = c := by
  rw [Char.toLower]
  simp only [ge_iff_le]
  rw [if_neg h]

/-- Uppercase means code point in `65..90`. -/
theorem isUpper_iff_toNat (c : Char) : c.isUpper = true ↔ (65 ≤ c.toNat ∧ c.toNat ≤ 90) := by
  rw [Char.isUpper]
  constructor
  · intro h
    rcases Bool.and_eq_true_iff.mp h with ⟨h1, h2⟩
    exact ⟨of_decide_eq_true h1, of_decide_eq_true h2⟩
  · intro ⟨h1, h2⟩
    exact Bool.and_eq_true_iff.mpr ⟨decide_eq_true h1, decide_eq_true h2⟩

/-- Lowercasing is idempotent on characters. -/
theorem toLower_toLower (c : Char) : Char.toLower (Char.toLower c) = Char.toLower c := by
  by_cases h : 65 ≤ c.toNat ∧ c.toNat ≤ 90
  · have := toLower_toNat_of_upper c h.1 h.2
    apply toLower_eq_self
    omega
  · rw [toLower_eq_self c h]
    exact toLower_eq_self c h

/-- The lowercase image of a character is never uppercase. -/
theorem toLower_not_upper (c : Char) : (Char.toLower c).isUpper = false := by
  by_cases h : 65 ≤ c.toNat ∧ c.toNat ≤ 90
  · have := toLower_toNat_of_upper c h.1 h.2
    rw [Bool.eq_false_iff]
    intro habs
    have := (isUpper_iff_toNat _).mp habs
    omega
  · rw [toLower_eq_self c h, Bool.eq_false_iff]
    intro habs
    exact h ((isUpper_iff_toNat _).mp habs)

/-- A character whose lowercase image has a code point below `97` (such as
`'.'` or `'/'`) was that image already. -/
theorem toLower_eq_low_special (c d : Char) (hd : d.toNat < 97) (h : Char.toLower c = d) :
    c = d := by
  by_cases hc : 65 ≤ c.toNat ∧ c.toNat ≤ 90
  · have h2 := toLower_toNat_of_upper c hc.1 hc.2
    rw [h] at h2
    omega
  · rw [← h, toLower_eq_self c hc]

/-- Characters below code point `97` survive in, and are not created by,
lowercasing a string. -/
theorem mem_toLowerStr_low (s : String) (d : Char) (hd : d.toNat < 65) :
    d ∈ (toLowerStr s).data ↔ d ∈ s.data := by
  show d ∈ s.data.map Char.toLower ↔ d ∈ s.data
  constructor
  · intro h
    rcases List.mem_map.mp h with ⟨c, hc, hcd⟩
    rwa [← toLower_eq_low_special c d (by omega) hcd]
  · intro h
    refine List.mem_map.mpr ⟨d, h, ?_⟩
    apply toLower_eq_self
    omega

/-! ### List-level lemmas about lastIdxChar and extScan -/

/-- No last index exactly when the character is absent. -/
theorem lastIdxChar_eq_none (c : Char) (l : List Char) :
    lastIdxChar c l = none ↔ c ∉ l := by
  induction l with
  | nil => simp [lastIdxChar]
  | cons d rest ih =>
    rw [lastIdxChar]
    cases hrec : lastIdxChar c rest with
    | some i =>
      simp only [hrec]
      have hcm : c ∈ rest := by
        by_contra hn
        rw [ih.mpr hn] at hrec
        exact Option.noConfusion hrec
      constructor
      · intro h
        exact Option.noConfusion h
      · intro h
        exact absurd (List.mem_cons_of_mem d hcm) h
    | none =>
      simp only [hrec]
      by_cases hd : d = c
      · simp [hd]
      · simp only [if_neg hd]
        simp [Ne.symm hd, ih.mp hrec]

/-- The last index of `c` in `pre ++ c :: t` with `c ∉ t` is `pre.length`. -/
theorem lastIdxChar_append (c : Char) (pre t : List Char) (ht : c ∉ t) :
    lastIdxChar c (pre ++ c :: t) = some pre.length := by
  induction pre with
  | nil =>
    rw [List.nil_append, lastIdxChar, (lastIdxChar_eq_none c t).mpr ht, if_pos rfl]
    rfl
  | cons d pre' ih =>
    rw [List.cons_append, lastIdxChar, ih]
    rfl

/-- Scanning characters that are neither dot nor slash, then a dot,
returns the dot followed by the scanned characters and the accumulator. -/
theorem extScan_append (u v : List Char) :
    (∀ x ∈ u, x ≠ '.' ∧ x ≠ '/') →
      ∀ acc, extScan (u ++ '.' :: v) acc = '.' :: (u.reverse ++ acc) := by
  induction u with
  | nil =>
    intro _ acc
    rw [List.nil_append, extScan, if_neg (by decide), if_pos rfl, List.reverse_nil,
      List.nil_append]
  | cons x u' ih =>
    intro hu acc
    have hx := hu x (List.mem_cons_self x u')
    rw [List.cons_append, extScan, if_neg hx.2, if_neg hx.1,
      ih (fun y hy => hu y (List.mem_cons_of_mem x hy)) (x :: acc)]
    simp

/-- Last occurrence decomposition: an element of a list splits the list at
its final occurrence. -/
theorem exists_last_occurrence (c : Char) (l : List Char) (h : c ∈ l) :
    ∃ pre t, l = pre ++ c :: t ∧ c ∉ t := by
  induction l using List.reverseRecOn with
  | nil => exact absurd h (by simp)
  | append_singleton l' x ih =>
    by_cases hx : x = c
    · subst hx
      exact ⟨l', [], rfl, by simp⟩
    · have hc : c ∈ l' := by
        rcases List.mem_append.mp h with h' | h'
        · exact h'
        · exact absurd (List.mem_singleton.mp h') (fun he => hx he.symm)
      rcases ih hc with ⟨pre, t, hdec, hnot⟩
      refine ⟨pre, t ++ [x], by rw [hdec]; simp, ?_⟩
      intro habs
      rcases List.mem_append.mp habs with h' | h'
      · exact hnot h'
      · exact hx (List.mem_singleton.mp h').symm

/-! ### Case lemmas for GetExtension -/

/-- When the lowercased name has no dot, it is returned whole. -/
theorem getExtension_no_dot (s : String) (h : '.' ∉ (toLowerStr s).data) :
    GetExtension s = some (toLowerStr s) := by
  unfold GetExtension
  rw [if_pos]
  simp [List.elem_iff, h]

/-- When the only dot of the lowercased name is its first character, it is
returned whole. -/
theorem getExtension_dot_zero (s : String) (rest : List Char)
    (hdec : (toLowerStr s).data = '.' :: rest) (hrest : '.' ∉ rest) :
    GetExtension s = some (toLowerStr s) := by
  unfold GetExtension
  rw [if_neg, if_pos]
  · rw [hdec]
    exact lastIdxChar_append '.' [] rest hrest
  · simp only [Bool.not_eq_true']
    rw [Bool.not_eq_false]
    exact List.elem_iff.mpr (by rw [hdec]; exact List.mem_cons_self _ _)

/-- Otherwise the substring after the last dot of the lowercased name is
returned. -/
theorem getExtension_last_dot (s : String) (pre t : List Char)
    (hs : '/' ∉ s.data) (hdec : (toLowerStr s).data = pre ++ '.' :: t)
    (ht : '.' ∉ t) (hpre : pre ≠ []) :
    GetExtension s = some ⟨t⟩ := by
  have hslash : '/' ∉ (toLowerStr s).data :=
    fun h => hs ((mem_toLowerStr_low s '/' (by decide)).mp h)
  unfold GetExtension
  rw [if_neg, if_neg]
  · have hrev : (toLowerStr s).data.reverse = t.reverse ++ '.' :: pre.reverse := by
      rw [hdec]
      simp
    have hcond : ∀ x ∈ t.reverse, x ≠ '.' ∧ x ≠ '/' := by
      intro x hx
      have hxt : x ∈ t := List.mem_reverse.mp hx
      constructor
      · intro he; subst he; exact ht hxt
      · intro he; subst he
        exact hslash (by rw [hdec]; exact List.mem_append_right _ (List.mem_cons_of_mem _ hxt))
    have hext : (pathExt (toLowerStr s)).data = '.' :: t := by
      show extScan (toLowerStr s).data.reverse [] = '.' :: t
      rw [hrev, extScan_append _ _ hcond]
      simp
    rw [hext]
  · rw [hdec, lastIdxChar_append '.' pre t ht]
    simp [List.length_eq_zero, hpre]
  · simp only [Bool.not_eq_true']
    rw [Bool.not_eq_false]
    exact List.elem_iff.mpr
      (by rw [hdec]; exact List.mem_append_right _ (List.mem_cons_self _ _))

/-! ### C6: the three-case specification of GetExtension -/

/-- C6: for every separator-free name, `GetExtension` lowercases the name
and returns it unchanged when it has no dot; returns the whole lowercased
name when its only dot is the first character; and otherwise returns the
substring after the last dot (the decomposition `low = pre ++ '.' :: t`
with `'.' ∉ t` and `pre ≠ []` identifies the last dot, not at position
zero); the spec's seven examples evaluate accordingly. -/
theorem getExtension_spec (nm : String) (hs : '/' ∉ nm.data) :
    (('.' ∉ (toLowerStr nm).data) → GetExtension nm = some (toLowerStr nm)) ∧
    (∀ rest, (toLowerStr nm).data = '.' :: rest → '.' ∉ rest →
      GetExtension nm = some (toLowerStr nm)) ∧
    (∀ pre t, (toLowerStr nm).data = pre ++ '.' :: t → '.' ∉ t → pre ≠ [] →
      GetExtension nm = some ⟨t⟩) ∧
    GetExtension "something.c" = some "c" ∧
    GetExtension "something" = some "something" ∧
    GetExtension ".travis.yml" = some "yml" ∧
    GetExtension "something.go.yml" = some "yml" ∧
    GetExtension ".gitignore" = some ".gitignore" ∧
    GetExtension "test.d.ts" = some "ts" ∧
    GetExtension "DeviceDescription.stories.tsx" = some "tsx" :=
  ⟨getExtension_no_dot nm,
   fun rest hdec hrest => getExtension_dot_zero nm rest hdec hrest,
   fun pre t hdec ht hpre => getExtension_last_dot nm pre t hs hdec ht hpre,
   by decide, by decide, by decide, by decide, by decide, by decide, by decide⟩

/-- Witness for C6 at a concrete input: the compound-suffix regression
example, extracted through the last-dot case of the theorem. -/
theorem getExtension_spec_witness : GetExtension "DeviceDescription.stories.tsx" = some "tsx" :=
  (getExtension_spec "DeviceDescription.stories.tsx" (by decide)).2.2.1
    "devicedescription.stories".data "tsx".data (by decide) (by decide) (by decide)

/-! ### C10: idempotence and lowercase-valuedness of GetExtension -/

/-- Lowercasing fixes a string all of whose characters are lowercase-fixed. -/
theorem map_toLower_fixed (l : List Char) :
    (∀ c ∈ l, Char.toLower c = c) → l.map Char.toLower = l := by
  induction l with
  | nil => intro _; rfl
  | cons c rest ih =>
    intro h
    rw [List.map_cons, h c (List.mem_cons_self _ _),
      ih (fun d hd => h d (List.mem_cons_of_mem c hd))]

/-- Lowercasing fixes a string all of whose characters are
lowercase-fixed. -/
theorem toLowerStr_fixed (w : String) (h : ∀ c ∈ w.data, Char.toLower c = c) :
    toLowerStr w = w :=
  String.ext (map_toLower_fixed w.data h)

/-- C10 counterexample: the claim quantifies over every string, but on
`"a.b/c"` — a string whose last dot precedes a slash — the Go code reaches
`path.Ext(name)[1:]` with `path.Ext` returning `""` and panics on the
out-of-range slice, so `GetExtension` yields no value at all there, let
alone an idempotent lowercase one. -/
theorem getExtension_not_total : ¬ ∃ t : String, GetExtension "a.b/c" = some t := by
  rintro ⟨t, ht⟩
  rw [show GetExtension "a.b/c" = none from by decide] at ht
  exact Option.noConfusion ht

/-- C10 (amended): for every string without a path separator,
`GetExtension` returns a value `t`, that value is a fixed point
(`GetExtension t = some t`), and it contains no uppercase character. -/
theorem getExtension_idem_lower (s : String) (hs : '/' ∉ s.data) :
    ∃ t : String, GetExtension s = some t ∧ GetExtension t = some t ∧
      ∀ c ∈ t.data, c.isUpper = false := by
  have hlowfix : ∀ c ∈ (toLowerStr s).data, Char.toLower c = c := by
    intro c hc
    rcases List.mem_map.mp hc with ⟨c0, _, hc0⟩
    rw [← hc0]
    exact toLower_toLower c0
  have hupper : ∀ c ∈ (toLowerStr s).data, c.isUpper = false := by
    intro c hc
    rcases List.mem_map.mp hc with ⟨c0, _, hc0⟩
    rw [← hc0]
    exact toLower_not_upper c0
  have hidem : toLowerStr (toLowerStr s) = toLowerStr s := toLowerStr_fixed _ hlowfix
  by_cases hdot : '.' ∈ (toLowerStr s).data
  · rcases exists_last_occurrence '.' _ hdot with ⟨pre, t0, hdec, ht⟩
    by_cases hpre : pre = []
    · subst hpre
      rw [List.nil_append] at hdec
      refine ⟨toLowerStr s, getExtension_dot_zero s t0 hdec ht, ?_, hupper⟩
      have := getExtension_dot_zero (toLowerStr s) t0 (by rw [hidem]; exact hdec) ht
      rwa [hidem] at this
    · refine ⟨⟨t0⟩, getExtension_last_dot s pre t0 hs hdec ht hpre, ?_, ?_⟩
      · have hsub : ∀ c ∈ t0, c ∈ (toLowerStr s).data := by
          intro c hc
          rw [hdec]
          exact List.mem_append_right _ (List.mem_cons_of_mem _ hc)
        have hfix : toLowerStr ⟨t0⟩ = ⟨t0⟩ :=
          toLowerStr_fixed _ (fun c hc => hlowfix c (hsub c hc))
        have := getExtension_no_dot ⟨t0⟩ (by rw [hfix]; exact ht)
        rwa [hfix] at this
      · intro c hc
        refine hupper c ?_
        rw [hdec]
        exact List.mem_append_right _ (List.mem_cons_of_mem _ hc)
  · refine ⟨toLowerStr s, getExtension_no_dot s hdot, ?_, hupper⟩
    have := getExtension_no_dot (toLowerStr s) (by rw [hidem]; exact hdot)
    rwa [hidem] at this

/-- Witness for the amended C10 at a concrete input. -/
theorem getExtension_idem_lower_witness :
    ∃ t : String, GetExtension "Mixed.Case.TXT" = some t ∧ GetExtension t = some t ∧
      ∀ c ∈ t.data, c.isUpper = false :=
  getExtension_idem_lower "Mixed.Case.TXT" (by decide)

/-! ### C8: pattern-set stacks are scoped to the contributing ancestor chain -/

/-- Being on an ancestor chain is reflexive. -/
theorem pathBelow_refl (p : String) : pathBelow p p := Or.inl rfl

/-- A directory is on the chain of each of its entries. -/
theorem pathBelow_joinPath (p nm : String) : pathBelow p (joinPath p nm) := by
  right
  show (p ++ "/").data <+: ((p ++ "/") ++ nm).data
  rw [String.data_append]
  exact List.prefix_append _ _

/-- Ancestor chains compose. -/
theorem pathBelow_trans (a b c : String) (h1 : pathBelow a b) (h2 : pathBelow b c) :
    pathBelow a c := by
  rcases h1 with h1 | h1
  · subst h1; exact h2
  · rcases h2 with h2 | h2
    · subst h2; exact Or.inr h1
    · right
      have hb : b.data <+: (b ++ "/").data := by
        rw [String.data_append]
        exact List.prefix_append _ _
      exact h1.trans (hb.trans h2)

/-- Loading one entry appends to the stacks and tags everything appended
with the current directory. -/
theorem loadLocal_single (cfg : WalkerCfg) (d : String) (f : FSNode)
    (g i : List PatternSet) :
    ∃ a b, loadLocal cfg d [f] g i = (g ++ a, i ++ b) ∧
      (∀ s ∈ a, s.base = d) ∧ (∀ s ∈ b, s.base = d) := by
  cases f with
  | file nm ct =>
    by_cases c1 : cfg.ignoreGitIgnore = false ∧ nm = ".gitignore"
    · by_cases c2 : cfg.ignoreIgnoreFile = false ∧ nm = ".ignore"
      · exact absurd (c1.2.symm.trans c2.2) (by decide)
      · exact ⟨[⟨d, cfg.compile ct d⟩], [],
          by simp [loadLocal, c1, c2], by simp, by simp⟩
    · by_cases c2 : cfg.ignoreIgnoreFile = false ∧ nm = ".ignore"
      · exact ⟨[], [⟨d, cfg.compile ct d⟩],
          by simp [loadLocal, c1, c2], by simp, by simp⟩
      · exact ⟨[], [], by simp [loadLocal, c1, c2], by simp, by simp⟩
  | dir nm ch => exact ⟨[], [], by simp [loadLocal], by simp, by simp⟩
  | baddir nm e => exact ⟨[], [], by simp [loadLocal], by simp, by simp⟩

/-- Folding the loader over a list is the single step followed by the
rest. -/
theorem loadLocal_cons (cfg : WalkerCfg) (d : String) (f : FSNode) (rest : List FSNode)
    (g i : List PatternSet) :
    loadLocal cfg d (f :: rest) g i
      = loadLocal cfg d rest (loadLocal cfg d [f] g i).1 (loadLocal cfg d [f] g i).2 := rfl

/-- The loader only appends, and every appended pattern set is tagged with
the current directory. -/
theorem loadLocal_decomp (cfg : WalkerCfg) (d : String) (files : List FSNode) :
    ∀ g i : List PatternSet, ∃ gl il,
      loadLocal cfg d files g i = (g ++ gl, i ++ il) ∧
      (∀ s ∈ gl, s.base = d) ∧ (∀ s ∈ il, s.base = d) := by
  induction files with
  | nil => intro g i; exact ⟨[], [], by simp [loadLocal], by simp, by simp⟩
  | cons f rest ih =>
    intro g i
    obtain ⟨a, b, hab, hba, hbb⟩ := loadLocal_single cfg d f g i
    obtain ⟨gl', il', h', hg', hi'⟩ := ih (g ++ a) (i ++ b)
    refine ⟨a ++ gl', b ++ il', ?_, ?_, ?_⟩
    · rw [loadLocal_cons, hab]
      rw [h']
      simp [List.append_assoc]
    · intro s hs
      rcases List.mem_append.mp hs with hs | hs
      · exact hba s hs
      · exact hg' s hs
    · intro s hs
      rcases List.mem_append.mp hs with hs | hs
      · exact hbb s hs
      · exact hi' s hs

/-- Scoped entries relative to a deeper subtree root are scoped relative
to any directory on its chain. -/
theorem scopedEntry_weaken (p q : String) (g i : List PatternSet)
    (e : String × List PatternSet × List PatternSet)
    (hpq : pathBelow p q) (h : scopedEntry q g i e) : scopedEntry p g i e := by
  obtain ⟨hb, ⟨gext, hg, hgb⟩, ⟨iext, hi, hib⟩⟩ := h
  exact ⟨pathBelow_trans _ _ _ hpq hb,
    ⟨gext, hg, fun s hs => ⟨pathBelow_trans _ _ _ hpq (hgb s hs).1, (hgb s hs).2⟩⟩,
    ⟨iext, hi, fun s hs => ⟨pathBelow_trans _ _ _ hpq (hib s hs).1, (hib s hs).2⟩⟩⟩

/-- Scoped entries over stacks extended with sets contributed at the
subtree root itself are scoped over the original stacks. -/
theorem scopedEntry_extend (p : String) (g i gl il : List PatternSet)
    (e : String × List PatternSet × List PatternSet)
    (hgl : ∀ s ∈ gl, s.base = p) (hil : ∀ s ∈ il, s.base = p)
    (hb0 : pathBelow p e.1)
    (h : scopedEntry p (g ++ gl) (i ++ il) e) : scopedEntry p g i e := by
  obtain ⟨hb, ⟨gext, hg, hgb⟩, ⟨iext, hi, hib⟩⟩ := h
  refine ⟨hb, ⟨gl ++ gext, by rw [hg, List.append_assoc], ?_⟩,
    ⟨il ++ iext, by rw [hi, List.append_assoc], ?_⟩⟩
  · intro s hs
    rcases List.mem_append.mp hs with hs | hs
    · exact ⟨by rw [hgl s hs]; exact pathBelow_refl p, by rw [hgl s hs]; exact hb0⟩
    · exact hgb s hs
  · intro s hs
    rcases List.mem_append.mp hs with hs | hs
    · exact ⟨by rw [hil s hs]; exact pathBelow_refl p, by rw [hil s hs]; exact hb0⟩
    · exact hib s hs

mutual
/-- Every directory filtered inside a walk consults exactly the inherited
stacks extended by pattern sets contributed on its own ancestor chain. -/
theorem walkNode_scopedAux (cfg : WalkerCfg) (term : Nat → Bool) (node : FSNode)
    (p : String) (g i : List PatternSet) (n : Nat) :
    ∀ e ∈ (walkNode cfg term node p g i n).log, scopedEntry p g i e := by
  by_cases hterm : term n
  · rw [walkNode.eq_def, if_pos hterm]
    intro e he
    exact absurd he (by simp)
  · cases node with
    | file nm c =>
      rw [walkNode, if_neg (by simp [hterm])]
      intro e he
      exact absurd he (by simp)
    | baddir nm e0 =>
      rw [walkNode, if_neg (by simp [hterm])]
      intro e he
      rcases hh : cfg.errHandler with _ | h
      · rw [hh] at he
        exact absurd he (by simp)
      · rw [hh] at he
        by_cases hv : h e0 = true
        · simp [hv] at he
        · simp [hv] at he
    | dir nm children =>
      rw [walkNode, if_neg (by simp [hterm])]
      intro e he
      simp only [List.mem_cons] at he
      obtain ⟨gl, il, hload, hgl, hil⟩ :=
        loadLocal_decomp cfg p (children.toList.filter (fun c => !c.isDir)) g i
      rcases he with he | he
      · subst he
        refine ⟨pathBelow_refl p, ⟨gl, ?_, ?_⟩, ⟨il, ?_, ?_⟩⟩
        · show (loadLocal cfg p _ g i).1 = g ++ gl
          rw [hload]
        · intro s hs
          exact ⟨by rw [hgl s hs]; exact pathBelow_refl p,
            by rw [hgl s hs]; exact pathBelow_refl p⟩
        · show (loadLocal cfg p _ g i).2 = i ++ il
          rw [hload]
        · intro s hs
          exact ⟨by rw [hil s hs]; exact pathBelow_refl p,
            by rw [hil s hs]; exact pathBelow_refl p⟩
      · have hsub := walkDirs_scopedAux cfg term children p
          (loadLocal cfg p (children.toList.filter (fun c => !c.isDir)) g i).1
          (loadLocal cfg p (children.toList.filter (fun c => !c.isDir)) g i).2
          (n + 1) e he
        rw [hload] at hsub
        exact scopedEntry_extend p g i gl il e hgl hil hsub.1 hsub

/-- Companion of `walkNode_scopedAux` for the subdirectory loop. -/
theorem walkDirs_scopedAux (cfg : WalkerCfg) (term : Nat → Bool) (l : FSList)
    (p : String) (g i : List PatternSet) (n : Nat) :
    ∀ e ∈ (walkDirs cfg term l p g i n).log, scopedEntry p g i e := by
  cases l with
  | nil =>
    rw [walkDirs]
    intro e he
    exact absurd he (by simp)
  | cons c rest =>
    by_cases hd : c.isDir
    · by_cases hrec : dirShouldRecurse cfg p g i c.name
      · rw [walkDirs, if_pos hd, if_pos hrec]
        intro e he
        cases herr : (walkNode cfg term c (joinPath p c.name) g i n).err with
        | some e0 =>
          simp only [herr] at he
          exact scopedEntry_weaken p (joinPath p c.name) g i e (pathBelow_joinPath p c.name)
            (walkNode_scopedAux cfg term c (joinPath p c.name) g i n e he)
        | none =>
          simp only [herr] at he
          rcases List.mem_append.mp he with he | he
          · exact scopedEntry_weaken p (joinPath p c.name) g i e (pathBelow_joinPath p c.name)
              (walkNode_scopedAux cfg term c (joinPath p c.name) g i n e he)
          · exact walkDirs_scopedAux cfg term rest p g i
              ((walkNode cfg term c (joinPath p c.name) g i n).nOut) e he
      · rw [walkDirs, if_pos hd, if_neg hrec]
        exact walkDirs_scopedAux cfg term rest p g i n
    · rw [walkDirs, if_neg hd]
      exact walkDirs_scopedAux cfg term rest p g i n
end

/-- C8: for every walked subtree rooted at `p` with inherited stacks
`(g, i)`, every log entry — a directory `q` whose contents were filtered
together with the stacks consulted there — satisfies: `q` lies in `p`'s
subtree, the inherited stacks are an unchanged prefix of the consulted
stacks (copied-on-append, never mutated), and every appended pattern set
was contributed by a directory on `q`'s own ancestor chain; hence a
pattern set loaded inside one sibling subtree is never consulted when
filtering paths of another. -/
theorem ignore_stack_own_ancestors (cfg : WalkerCfg) (term : Nat → Bool) (node : FSNode)
    (p : String) (g i : List PatternSet) (n : Nat) :
    ∀ e ∈ (walkNode cfg term node p g i n).log, scopedEntry p g i e :=
  walkNode_scopedAux cfg term node p g i n

/-- Witness for C8 at a concrete input: the nested directory of `fsNest`. -/
theorem ignore_stack_own_ancestors_witness :
    scopedEntry "/r" [] [] ("/r/sub", [], []) :=
  ignore_stack_own_ancestors cfg0 termF fsNest "/r" [] [] 0 ("/r/sub", [], [])
    (List.Mem.tail _ (List.Mem.head _))

/-! ### C9: FindRepositoryRoot probes the working directory -/

/-- Unfolding of the ancestor loop when no separator remains. -/
theorem findRootLoop_none (env : OSEnv) (s cw : String)
    (h : lastIdxChar '/' cw.data = none) : findRootLoop env s cw = s := by
  rw [findRootLoop.eq_def]
  split
  · rfl
  · rename_i i heq
    rw [h] at heq
    exact Option.noConfusion heq

/-- Unfolding of the ancestor loop at the cut below the last separator. -/
theorem findRootLoop_some (env : OSEnv) (s cw : String) (i : Nat)
    (h : lastIdxChar '/' cw.data = some i) :
    findRootLoop env s cw
      = if checkForGitOrMercurial env ⟨cw.data.take i⟩ then (⟨cw.data.take i⟩ : String)
        else findRootLoop env s ⟨cw.data.take i⟩ := by
  rw [findRootLoop.eq_def]
  split
  · rename_i heq
    rw [h] at heq
    exact Option.noConfusion heq
  · rename_i j heq
    rw [h] at heq
    cases heq
    rfl

/-- Unfolding of the ancestor enumeration when no separator remains. -/
theorem strictAncestors_none (cw : String) (h : lastIdxChar '/' cw.data = none) :
    strictAncestors cw = [] := by
  rw [strictAncestors.eq_def]
  split
  · rfl
  · rename_i i heq
    rw [h] at heq
    exact Option.noConfusion heq

/-- Unfolding of the ancestor enumeration at the cut below the last
separator. -/
theorem strictAncestors_some (cw : String) (i : Nat)
    (h : lastIdxChar '/' cw.data = some i) :
    strictAncestors cw = (⟨cw.data.take i⟩ : String) :: strictAncestors ⟨cw.data.take i⟩ := by
  rw [strictAncestors.eq_def]
  split
  · rename_i heq
    rw [h] at heq
    exact Option.noConfusion heq
  · rename_i j heq
    rw [h] at heq
    cases heq
    rfl

/-- The ancestor loop returns the first (nearest) qualifying strict
ancestor, and the start directory when none qualifies. -/
theorem findRootLoop_eq_find (env : OSEnv) (s : String) (curdir : String) :
    findRootLoop env s curdir
      = ((strictAncestors curdir).find? (checkForGitOrMercurial env)).getD s := by
  induction curdir using findRootLoop.induct env s with
  | case1 x hidx =>
    rw [findRootLoop_none env s x hidx, strictAncestors_none x hidx]
    rfl
  | case2 x i hidx cd2 hcheck =>
    rw [findRootLoop_some env s x i hidx, strictAncestors_some x i hidx,
      List.find?_cons_of_pos _ hcheck, if_pos hcheck]
    rfl
  | case3 x i hidx cd2 hcheck ih =>
    rw [findRootLoop_some env s x i hidx, strictAncestors_some x i hidx,
      List.find?_cons_of_neg _ hcheck, if_neg hcheck]
    exact ih

/-- C9 counterexample: the claim, as stated, promises the nearest strict
ancestor of the working directory that contains a `.git`/`.hg` directory.
In `envRoot` the filesystem root `"/"` — a strict ancestor of the working
directory `/a/b` — contains `.git` (first conjunct), yet
`FindRepositoryRoot` returns the supplied start argument unchanged
(second conjunct): the ancestor loop's final cut is the empty string, and
`filepath.Join("", ".git") = ".git"` is a working-directory-relative
probe, so the program never probes `"/.git"` at all and never returns the
root. -/
theorem findRepositoryRoot_root_marker_cex :
    checkForGitOrMercurial envRoot "/" = true ∧
    FindRepositoryRoot envRoot "/start" = "/start" := by
  constructor
  · decide
  · show (if checkForGitOrMercurial envRoot "/a/b" then "/start"
          else findRootLoop envRoot "/start" "/a/b") = "/start"
    rw [if_neg (by decide), findRootLoop_some envRoot "/start" "/a/b" 2 (by decide),
      if_neg (by decide),
      findRootLoop_some envRoot "/start" ⟨"/a/b".data.take 2⟩ 0 (by decide),
      if_neg (by decide),
      findRootLoop_none envRoot "/start" _ (by decide)]

/-- C9 (amended): `FindRepositoryRoot` probes the process working
directory, not the supplied start argument: when `Getwd` fails, when the
working directory itself holds a `.git`/`.hg` directory, or when no cut
of the working directory at a separator passes the probe, the supplied
start argument is returned unchanged; otherwise the nearest such cut is
returned (the cuts are enumerated nearest-first by repeatedly cutting at
the last separator).  Moreover the final, empty cut probes the
working-directory-relative paths `".git"`/`".hg"`; in an environment
where the OS resolves those against the working directory, that cut can
never pass once the working directory's own check has failed — so the
filesystem root is never returned, and when only the root holds a marker
the result falls back to the start argument. -/
theorem findRepositoryRoot_probes_cwd (env : OSEnv) (startDirectory : String) :
    (FindRepositoryRoot env startDirectory =
      match env.cwd with
      | none => startDirectory
      | some cw =>
        if checkForGitOrMercurial env cw then startDirectory
        else
          match (strictAncestors cw).find? (checkForGitOrMercurial env) with
          | some a => a
          | none => startDirectory) ∧
    (∀ cw, env.cwd = some cw →
      env.statIsDir ".git" = env.statIsDir (filepathJoin cw ".git") →
      env.statIsDir ".hg" = env.statIsDir (filepathJoin cw ".hg") →
      checkForGitOrMercurial env cw = false →
      (strictAncestors cw).find? (checkForGitOrMercurial env) ≠ some "") := by
  constructor
  · cases hcwd : env.cwd with
    | none =>
      unfold FindRepositoryRoot
      rw [hcwd]
    | some cw =>
      unfold FindRepositoryRoot
      rw [hcwd]
      show (if checkForGitOrMercurial env cw then startDirectory
            else findRootLoop env startDirectory cw)
          = (if checkForGitOrMercurial env cw then startDirectory
             else match (strictAncestors cw).find? (checkForGitOrMercurial env) with
                  | some a => a
                  | none => startDirectory)
      by_cases hc : checkForGitOrMercurial env cw = true
      · rw [if_pos hc, if_pos hc]
      · rw [if_neg hc, if_neg hc, findRootLoop_eq_find]
        cases hfind : (strictAncestors cw).find? (checkForGitOrMercurial env) with
        | some a => rfl
        | none => rfl
  · intro cw _ hg hh hc hfind
    have hsel : checkForGitOrMercurial env "" = true := List.find?_some hfind
    have hempty : checkForGitOrMercurial env ""
        = (env.statIsDir ".git" || env.statIsDir ".hg") := rfl
    rw [hempty, hg, hh] at hsel
    have : checkForGitOrMercurial env cw = true := hsel
    rw [hc] at this
    exact Bool.noConfusion this

/-- Witness for the amended C9 at a concrete input: in `env9` (marker at
`/h/u/proj/.git`, working directory `/h/u/proj/sub`) the relative-probe
consistency holds and the empty cut is never selected. -/
theorem findRepositoryRoot_probes_cwd_witness :
    (strictAncestors "/h/u/proj/sub").find? (checkForGitOrMercurial env9) ≠ some "" :=
  (findRepositoryRoot_probes_cwd env9 "/start").2 "/h/u/proj/sub" rfl
    (by decide) (by decide) (by decide)

end GoCodeWalker
